import Mathlib

/-!
# Verification of the anipose CLI orchestration layer

A shallow embedding of `src/anipose/anipose.py` and
`src/anipose/pose_videos.py`.

Configuration values are modelled by `TomlVal`; a configuration mapping is an
association list in insertion order, matching the insertion-ordered
dict of Python.  Filesystem-dependent functions (`os.path.*`) are modelled as pure
string functions over an `OsEnv` carrying the home directory and the current
working directory; directory contents are modelled as lists of file names.
-/

namespace Anipose

/-- A TOML-like configuration value, as produced by `toml.load`.
`float` carries an inert rational literal; `table` is a nested mapping in
insertion order.  (TOML datetimes are not needed by any claim.) -/
inductive TomlVal where
  | str (s : String)
  | int (n : Int)
  | float (q : Rat)
  | bool (b : Bool)
  | arr (l : List TomlVal)
  | table (t : List (String × TomlVal))

/-- A configuration mapping: string keys to values, in insertion order. -/
abbrev Cfg := List (String × TomlVal)

/-- First-occurrence lookup, the semantics of `config[k]` / `k in config`. -/
def lookupKV (k : String) : Cfg → Option TomlVal
  | [] => none
  | (k', v) :: rest => if k' = k then some v else lookupKV k rest

/-- `k in config` for a Python dict. -/
def containsKey (k : String) (c : Cfg) : Bool :=
  (lookupKV k c).isSome

/-- `config[k] = v` for a Python dict: update in place if the key exists
(keeping its position), otherwise append at the end. -/
def setKey (c : Cfg) (k : String) (v : TomlVal) : Cfg :=
  match c with
  | [] => [(k, v)]
  | (k', w) :: rest =>
    if k' = k then (k, v) :: rest else (k', w) :: setKey rest k v

/-! ## POSIX path helpers (`os.path.*`)

These model the pure-string behaviour of `posixpath` functions.  They are
written over `List Char` with structural recursion so that every proof can
evaluate them inside the kernel. -/

/-- `s.startswith(p)` on strings. -/
def startsWithS (s p : String) : Bool :=
  p.toList.isPrefixOf s.toList

/-- Split a character list on a separator, keeping empty components,
like `str.split(sep)`. -/
def splitOnChar (sep : Char) : List Char → List (List Char)
  | [] => [[]]
  | c :: cs =>
    let r := splitOnChar sep cs
    if c = sep then [] :: r
    else
      match r with
      | h :: t => (c :: h) :: t
      | [] => [[c]]

/-- Join path components with `'/'`, like `'/'.join(comps)`. -/
def joinComps : List (List Char) → List Char
  | [] => []
  | [x] => x
  | x :: xs => x ++ '/' :: joinComps xs

/-- `posixpath.normpath`: collapse `//` and `.` components and resolve `..`
where possible, preserving an initial `//` (exactly two leading slashes). -/
def normpathP (p : String) : String :=
  let cs := p.toList
  if cs = [] then "."
  else
    let slashes := (cs.takeWhile (· = '/')).length
    let leadingCount := if slashes = 0 then 0 else if slashes = 2 then 2 else 1
    let comps := splitOnChar '/' cs
    let newComps := comps.foldl (fun acc c =>
      if c = [] ∨ c = ['.'] then acc
      else if c ≠ ['.', '.'] ∨ (leadingCount = 0 ∧ acc = []) ∨
              acc.getLast? = some ['.', '.'] then acc ++ [c]
      else if acc ≠ [] then acc.dropLast
      else acc) ([] : List (List Char))
    let r := List.replicate leadingCount '/' ++ joinComps newComps
    if r = [] then "." else ⟨r⟩

/-- `posixpath.basename`: everything after the last `'/'`. -/
def basenameP (p : String) : String :=
  ⟨(p.toList.reverse.takeWhile (· ≠ '/')).reverse⟩

/-- `posixpath.dirname`: everything before the last `'/'`; trailing slashes
are stripped unless the head consists only of slashes. -/
def dirnameP (p : String) : String :=
  let cs := p.toList
  let k := (cs.reverse.takeWhile (· ≠ '/')).length
  if k = cs.length then ""
  else
    let head := cs.take (cs.length - k)
    if head.all (· = '/') then ⟨head⟩
    else ⟨(head.reverse.dropWhile (· = '/')).reverse⟩

/-- `posixpath.splitext`: split off the extension at the last dot of the
basename, unless every character of the basename before that dot is a dot. -/
def splitextP (p : String) : String × String :=
  let cs := p.toList
  let bn := cs.reverse.takeWhile (· ≠ '/')
  let afterDot := bn.takeWhile (· ≠ '.')
  if afterDot.length = bn.length then (p, "")
  else
    let stemRev := bn.drop (afterDot.length + 1)
    if stemRev.all (· = '.') then (p, "")
    else (⟨cs.take (cs.length - afterDot.length - 1)⟩, ⟨'.' :: afterDot.reverse⟩)

/-- `posixpath.join` for two components. -/
def joinP (a b : String) : String :=
  if startsWithS b "/" then b
  else if a = "" ∨ a.toList.getLast? = some '/' then a ++ b
  else a ++ "/" ++ b

/-- The home directory and current working directory seen by `os.path`. -/
structure OsEnv where
  home : String
  cwd : String

/-- `posixpath.expanduser`: a leading `~` (bare or `~/...`) is replaced by
the home directory with trailing slashes stripped; `~user` for a user not in
the password database is returned unchanged, which is how we model the
`pwd`-database lookup. -/
def expanduserP (home p : String) : String :=
  match p.toList with
  | [] => p
  | c :: rest =>
    if c = '~' then
      if rest.takeWhile (· ≠ '/') = [] then
        let uh := (home.toList.reverse.dropWhile (· = '/')).reverse
        let r := uh ++ rest
        if r = [] then "/" else ⟨r⟩
      else p
    else p

/-- `posixpath.abspath`: join with the current working directory if relative,
then normalize. -/
def abspathP (cwd p : String) : String :=
  normpathP (if startsWithS p "/" then p else joinP cwd p)

/-- `full_path` from `anipose.py`: expanduser, then abspath, then normpath. -/
def full_path (env : OsEnv) (path : String) : String :=
  normpathP (abspathP env.cwd (expanduserP env.home path))

/-! ## `DEFAULT_CONFIG` and `load_config` (`anipose.py`, lines 11–78) -/

/-- The static default configuration tree from `anipose.py`. -/
def DEFAULT_CONFIG : Cfg :=
  [("calibration", .table [("animal_calibration", .bool false)]),
   ("pipeline", .table
     [("videos_raw", .str "videos-raw"),
      ("pose_2d", .str "pose-2d"),
      ("pose_2d_filter", .str "pose-2d-filtered"),
      ("pose_3d", .str "pose-3d"),
      ("videos_labeled_2d", .str "videos-labeled"),
      ("videos_labeled_2d_filter", .str "videos-labeled-filtered"),
      ("calibration_videos", .str "calibration"),
      ("calibration_results", .str "calibration"),
      ("videos_labeled_3d", .str "videos-3d"),
      ("angles", .str "angles"),
      ("summaries", .str "summaries"),
      ("videos_combined", .str "videos-combined"),
      ("gpus", .int 0),
      ("npool", .int 1)]),
   ("filter", .table
     [("enabled", .bool false),
      ("medfilt", .int 13),
      ("offset_threshold", .int 25),
      ("score_threshold", .float (8 / 10 : Rat)),
      ("spline", .bool true)]),
   ("labeling", .table [("dot_size", .int 7)])]

/-- `k2 in s` for a Python string `s`: substring containment. -/
def strContains (hay ndl : String) : Bool :=
  (List.range (hay.toList.length + 1)).any
    (fun i => ndl.toList.isPrefixOf (hay.toList.drop i))

/-- `k2 in a` for a Python list `a` when `k2` is a string: only string
elements can compare equal. -/
def listHasStr (a : List TomlVal) (k2 : String) : Bool :=
  a.any (fun x => match x with | .str t => t = k2 | _ => false)

/-- One iteration of the nested-defaults loop body
(`for k2, v2 in v.items(): if k2 not in config[k]: config[k][k2] = v2`)
for the current value `cur` of `config[k]`:

* a dict back-fills missing keys;
* `k2 in s` works on a string, but the assignment then raises `TypeError`,
  so a string survives only if every default key is a substring;
* `k2 in a` works on a list, but the assignment raises `TypeError`, so a
  list survives only if it contains every default key as a string element;
* `in` itself raises `TypeError` on ints, floats and bools, unless the
  section is empty and the loop never runs. -/
def mergeSection (dv : Cfg) : TomlVal → Except String TomlVal
  | .table t =>
    .ok (.table (dv.foldl (fun acc kv =>
      if containsKey kv.1 acc then acc else acc ++ [kv]) t))
  | .str s =>
    if dv.all (fun kv => strContains s kv.1) then .ok (.str s)
    else .error "TypeError: str object does not support item assignment"
  | .arr a =>
    if dv.all (fun kv => listHasStr a kv.1) then .ok (.arr a)
    else .error "TypeError: list indices must be integers or slices"
  | .int n =>
    if dv.isEmpty then .ok (.int n)
    else .error "TypeError: argument of type int is not iterable"
  | .float q =>
    if dv.isEmpty then .ok (.float q)
    else .error "TypeError: argument of type float is not iterable"
  | .bool b =>
    if dv.isEmpty then .ok (.bool b)
    else .error "TypeError: argument of type bool is not iterable"

/-- The back-filled table produced by `mergeSection` on a dict. -/
def backfillTable (dv t : Cfg) : Cfg :=
  dv.foldl (fun acc kv => if containsKey kv.1 acc then acc else acc ++ [kv]) t

/-- The defaults loop of `load_config` (`anipose.py`, lines 70–76). -/
def mergeDefaults : Cfg → Cfg → Except String Cfg
  | [], config => .ok config
  | (k, v) :: ds, config =>
    match lookupKV k config with
    | none => mergeDefaults ds (config ++ [(k, v)])
    | some cur =>
      match v with
      | .table dv =>
        match mergeSection dv cur with
        | .ok nv => mergeDefaults ds (setKey config k nv)
        | .error e => .error e
      | _ => mergeDefaults ds config

/-- Lines 59–63 of `anipose.py`: derive the `path` key when it is absent,
from the directory of an existing config file or else the current working
directory. -/
def pathStep (env : OsEnv) (fexists : Bool) (fname : String)
    (config : Cfg) : Cfg :=
  if containsKey "path" config then config
  else if fexists = true ∧ dirnameP fname ≠ "" then
    setKey config "path" (.str (dirnameP fname))
  else setKey config "path" (.str env.cwd)

/-- Lines 67–68 of `anipose.py`: derive the `project` key when it is absent,
as the basename of the (already normalized) `path` value. -/
def projectStep (pathVal : String) (config : Cfg) : Cfg :=
  if containsKey "project" config then config
  else setKey config "project" (.str (basenameP pathVal))

/-- `load_config` (`anipose.py`, lines 49–78).

The file at `fname` is abstracted as `file`: `none` when no file exists,
`some (.error e)` when `toml.load` raises a parse error, and
`some (.ok t)` when it parses to the mapping `t`.  `fnameOpt` is the
optional `--config` argument (`None` defaults to `"config.toml"`).
Python raises `TypeError` from `os.path.expanduser` when the `path` value is
not a string; the `none` arm of the inner match cannot be reached because
`pathStep` always leaves a `path` key. -/
def load_config (env : OsEnv) (file : Option (Except String Cfg))
    (fnameOpt : Option String) : Except String Cfg :=
  let fname := fnameOpt.getD "config.toml"
  match file with
  | some (.error e) => .error e
  | _ =>
    let config : Cfg := match file with | some (.ok t) => t | _ => []
    let config := pathStep env file.isSome fname config
    match lookupKV "path" config with
    | some (.str p) =>
      let config := setKey config "path" (.str (full_path env p))
      let config := projectStep (full_path env p) config
      mergeDefaults DEFAULT_CONFIG config
    | some _ => .error "TypeError: expected str, bytes or os.PathLike object"
    | none => .error "unreachable: path was just inserted"

/-- `Except.isOk` specialised to our error type. -/
def isOkB {α : Type} : Except String α → Bool
  | .ok _ => true
  | .error _ => false

/-! ## Association-list lemmas -/

theorem lookupKV_cons_self (c : Cfg) (k : String) (v : TomlVal) :
    lookupKV k ((k, v) :: c) = some v := by simp [lookupKV]

theorem lookupKV_cons_ne (c : Cfg) {k k' : String} (v : TomlVal) (h : k' ≠ k) :
    lookupKV k ((k', v) :: c) = lookupKV k c := by simp [lookupKV, h]

theorem lookupKV_setKey_self (c : Cfg) (k : String) (v : TomlVal) :
    lookupKV k (setKey c k v) = some v := by
  induction c with
  | nil => simp [setKey, lookupKV]
  | cons hd tl ih =>
    obtain ⟨k', w⟩ := hd
    by_cases h : k' = k
    · subst h; simp [setKey, lookupKV]
    · simp [setKey, lookupKV, h, ih]

theorem lookupKV_setKey_ne (c : Cfg) {k k' : String} (v : TomlVal)
    (h : k' ≠ k) : lookupKV k (setKey c k' v) = lookupKV k c := by
  induction c with
  | nil => simp [setKey, lookupKV, h]
  | cons hd tl ih =>
    obtain ⟨k'', w⟩ := hd
    by_cases h2 : k'' = k'
    · subst h2; simp [setKey, lookupKV, h]
    · simp [setKey, lookupKV, h2, ih]

theorem lookupKV_append (c d : Cfg) (k : String) :
    lookupKV k (c ++ d) =
      match lookupKV k c with
      | some v => some v
      | none => lookupKV k d := by
  induction c with
  | nil => simp [lookupKV]
  | cons hd tl ih =>
    obtain ⟨k', w⟩ := hd
    by_cases h : k' = k <;> simp [lookupKV, h, ih]

theorem lookupKV_append_single_ne (c : Cfg) {k k' : String} (v : TomlVal)
    (h : k' ≠ k) : lookupKV k (c ++ [(k', v)]) = lookupKV k c := by
  rw [lookupKV_append]
  rcases lookupKV k c with _ | w
  · simp [lookupKV, h]
  · rfl

theorem lookupKV_append_of_none (c : Cfg) {k : String}
    (h : lookupKV k c = none) (d : Cfg) :
    lookupKV k (c ++ d) = lookupKV k d := by
  rw [lookupKV_append, h]

theorem lookupKV_append_of_some (c : Cfg) {k : String} {v : TomlVal}
    (h : lookupKV k c = some v) (d : Cfg) :
    lookupKV k (c ++ d) = some v := by
  rw [lookupKV_append, h]

theorem lookupKV_isSome_of_mem {c : Cfg} {k : String} {v : TomlVal}
    (h : (k, v) ∈ c) : (lookupKV k c).isSome = true := by
  induction c with
  | nil => cases h
  | cons hd tl ih =>
    obtain ⟨k', w⟩ := hd
    rcases List.mem_cons.mp h with h1 | h1
    · cases h1; simp [lookupKV]
    · by_cases h2 : k' = k <;> simp [lookupKV, h2, ih h1]

theorem not_mem_of_lookupKV_none {c : Cfg} {k : String}
    (h : lookupKV k c = none) (v : TomlVal) : (k, v) ∉ c := by
  intro hm
  have := lookupKV_isSome_of_mem hm
  rw [h] at this
  cases this

/-! ## `mergeDefaults` lemmas -/

/-- A key that does not occur in the defaults list is left untouched by the
defaults loop. -/
theorem mergeDefaults_lookup_of_not_mem :
    ∀ (ds cfg m : Cfg) (k : String), mergeDefaults ds cfg = .ok m →
      k ∉ ds.map Prod.fst → lookupKV k m = lookupKV k cfg := by
  intro ds
  induction ds with
  | nil =>
    intro cfg m k h _
    simp [mergeDefaults] at h
    subst h; rfl
  | cons hd tl ih =>
    obtain ⟨k', v⟩ := hd
    intro cfg m k h hk
    have hkk' : k' ≠ k := by
      intro he; exact hk (by simp [he])
    have hktl : k ∉ tl.map Prod.fst := by
      intro he; exact hk (by simp [he])
    rw [mergeDefaults] at h
    split at h
    · rw [ih _ _ _ h hktl, lookupKV_append_single_ne _ _ hkk']
    · split at h
      · split at h
        · rw [ih _ _ _ h hktl, lookupKV_setKey_ne _ _ hkk']
        · cases h
      · exact ih _ _ _ h hktl

/-- A default key missing from the configuration is back-filled with its
whole default value. -/
theorem mergeDefaults_lookup_of_missing :
    ∀ (ds cfg m : Cfg) (k : String) (v : TomlVal),
      mergeDefaults ds cfg = .ok m → (ds.map Prod.fst).Nodup →
      (k, v) ∈ ds → lookupKV k cfg = none → lookupKV k m = some v := by
  intro ds
  induction ds with
  | nil => intro _ _ _ _ _ _ h; cases h
  | cons hd tl ih =>
    obtain ⟨k', v'⟩ := hd
    intro cfg m k v h hnd hm hnone
    have hnd' := hnd
    rw [List.map_cons, List.nodup_cons] at hnd'
    have hk'tl : k' ∉ tl.map Prod.fst := hnd'.1
    have hndtl : (tl.map Prod.fst).Nodup := hnd'.2
    rcases List.mem_cons.mp hm with h1 | h1
    · -- (k, v) is the head entry
      cases h1
      rw [mergeDefaults] at h
      split at h
      · rw [mergeDefaults_lookup_of_not_mem _ _ _ _ h hk'tl,
          lookupKV_append_of_none _ hnone, lookupKV_cons_self]
      · rename_i cur heq
        rw [hnone] at heq; cases heq
    · -- (k, v) is in the tail; the head key differs
      have hkk' : k' ≠ k := by
        intro he; subst he
        exact hk'tl (List.mem_map.mpr ⟨(k', v), h1, rfl⟩)
      rw [mergeDefaults] at h
      split at h
      · refine ih _ _ _ _ h hndtl h1 ?_
        rw [lookupKV_append_single_ne _ _ hkk', hnone]
      · split at h
        · split at h
          · refine ih _ _ _ _ h hndtl h1 ?_
            rw [lookupKV_setKey_ne _ _ hkk', hnone]
          · cases h
        · exact ih _ _ _ _ h hndtl h1 hnone

/-- A default section key present in the configuration ends up holding the
result of `mergeSection` applied to its configured value, and that
`mergeSection` succeeded. -/
theorem mergeDefaults_lookup_of_section :
    ∀ (ds cfg m : Cfg) (k : String) (dv : Cfg) (cur : TomlVal),
      mergeDefaults ds cfg = .ok m → (ds.map Prod.fst).Nodup →
      (k, TomlVal.table dv) ∈ ds → lookupKV k cfg = some cur →
      ∃ nv, mergeSection dv cur = .ok nv ∧ lookupKV k m = some nv := by
  intro ds
  induction ds with
  | nil => intro _ _ _ _ _ _ _ h; cases h
  | cons hd tl ih =>
    obtain ⟨k', v'⟩ := hd
    intro cfg m k dv cur h hnd hm hcur
    have hnd' := hnd
    rw [List.map_cons, List.nodup_cons] at hnd'
    have hk'tl : k' ∉ tl.map Prod.fst := hnd'.1
    have hndtl : (tl.map Prod.fst).Nodup := hnd'.2
    rcases List.mem_cons.mp hm with h1 | h1
    · cases h1
      rw [mergeDefaults] at h
      split at h
      · rename_i heq
        rw [hcur] at heq; cases heq
      · rename_i cur' heq
        rw [hcur] at heq
        injection heq with heq; subst heq
        split at h
        · rename_i dv' hs
          injection hs with hs; subst hs
          split at h
          · rename_i nv hsm
            refine ⟨nv, hsm, ?_⟩
            rw [mergeDefaults_lookup_of_not_mem _ _ _ _ h hk'tl,
              lookupKV_setKey_self]
          · cases h
        · rename_i hna
          exact absurd rfl (hna dv)
    · have hkk' : k' ≠ k := by
        intro he; subst he
        exact hk'tl (List.mem_map.mpr ⟨(k', TomlVal.table dv), h1, rfl⟩)
      rw [mergeDefaults] at h
      split at h
      · refine ih _ _ _ _ _ h hndtl h1 ?_
        rw [lookupKV_append_single_ne _ _ hkk', hcur]
      · split at h
        · split at h
          · refine ih _ _ _ _ _ h hndtl h1 ?_
            rw [lookupKV_setKey_ne _ _ hkk', hcur]
          · cases h
        · exact ih _ _ _ _ _ h hndtl h1 hcur

/-- A key present in the configuration whose default value is not a nested
mapping is never modified by the defaults loop. -/
theorem mergeDefaults_lookup_of_nontable :
    ∀ (ds cfg m : Cfg) (k : String) (v : TomlVal),
      mergeDefaults ds cfg = .ok m → (ds.map Prod.fst).Nodup →
      (k, v) ∈ ds → (∀ dv, v ≠ .table dv) → containsKey k cfg = true →
      lookupKV k m = lookupKV k cfg := by
  intro ds
  induction ds with
  | nil => intro _ _ _ _ _ _ h; cases h
  | cons hd tl ih =>
    obtain ⟨k', v'⟩ := hd
    intro cfg m k v h hnd hm hv hc
    have hnd' := hnd
    rw [List.map_cons, List.nodup_cons] at hnd'
    have hk'tl : k' ∉ tl.map Prod.fst := hnd'.1
    have hndtl : (tl.map Prod.fst).Nodup := hnd'.2
    rcases List.mem_cons.mp hm with h1 | h1
    · cases h1
      rw [mergeDefaults] at h
      split at h
      · rename_i heq
        rw [containsKey, heq] at hc; cases hc
      · rename_i cur heq
        split at h
        · exact absurd rfl (hv _)
        · exact mergeDefaults_lookup_of_not_mem _ _ _ _ h hk'tl
    · have hkk' : k' ≠ k := by
        intro he; subst he
        exact hk'tl (List.mem_map.mpr ⟨(k', v), h1, rfl⟩)
      rw [mergeDefaults] at h
      split at h
      · rw [ih _ _ _ _ h hndtl h1 hv ?_, lookupKV_append_single_ne _ _ hkk']
        rw [containsKey, lookupKV_append_single_ne _ _ hkk']
        exact hc
      · split at h
        · split at h
          · rw [ih _ _ _ _ h hndtl h1 hv ?_, lookupKV_setKey_ne _ _ hkk']
            rw [containsKey, lookupKV_setKey_ne _ _ hkk']
            exact hc
          · cases h
        · exact ih _ _ _ _ h hndtl h1 hv hc

/-! ## `mergeSection` and `backfillTable` lemmas -/

/-- `mergeSection` on a non-mapping value either fails or leaves the value
unchanged. -/
theorem mergeSection_nontable {dv : Cfg} {cur nv : TomlVal}
    (h : mergeSection dv cur = .ok nv) (ht : ∀ t, cur ≠ .table t) :
    nv = cur := by
  cases cur with
  | table t => exact absurd rfl (ht t)
  | str s =>
    rw [mergeSection] at h
    split at h
    · injection h with h; exact h.symm
    · cases h
  | arr l =>
    rw [mergeSection] at h
    split at h
    · injection h with h; exact h.symm
    · cases h
  | int n =>
    rw [mergeSection] at h
    split at h
    · injection h with h; exact h.symm
    · cases h
  | float q =>
    rw [mergeSection] at h
    split at h
    · injection h with h; exact h.symm
    · cases h
  | bool b =>
    rw [mergeSection] at h
    split at h
    · injection h with h; exact h.symm
    · cases h

/-- `mergeSection` on a mapping back-fills it. -/
theorem mergeSection_table (dv t : Cfg) :
    mergeSection dv (.table t) = .ok (.table (backfillTable dv t)) := rfl

/-- Back-filling never changes a key already present. -/
theorem backfillTable_lookup_of_some :
    ∀ (dv t : Cfg) (k2 : String) (w : TomlVal),
      lookupKV k2 t = some w → lookupKV k2 (backfillTable dv t) = some w := by
  intro dv
  induction dv with
  | nil => intro t k2 w h; exact h
  | cons hd tl ih =>
    obtain ⟨k2', v2'⟩ := hd
    intro t k2 w h
    rw [backfillTable, List.foldl_cons]
    by_cases hc : containsKey k2' t
    · simp only [hc, if_true]
      exact ih t k2 w h
    · simp only [hc, if_false]
      exact ih _ k2 w (lookupKV_append_of_some _ h _)

/-- Back-filling adds the first default value for a key missing from the
section. -/
theorem backfillTable_lookup_of_none :
    ∀ (dv t : Cfg) (k2 : String) (v2 : TomlVal),
      lookupKV k2 dv = some v2 → lookupKV k2 t = none →
      lookupKV k2 (backfillTable dv t) = some v2 := by
  intro dv
  induction dv with
  | nil => intro t k2 v2 h; cases h
  | cons hd tl ih =>
    obtain ⟨k2', v2'⟩ := hd
    intro t k2 v2 h hnone
    rw [backfillTable, List.foldl_cons]
    by_cases he : k2' = k2
    · subst he
      have hv2 : v2' = v2 := by
        rw [lookupKV] at h; simp at h; exact h
      subst hv2
      have hc : containsKey k2' t = false := by
        simp [containsKey, hnone]
      simp only [hc, Bool.false_eq_true, if_false]
      refine backfillTable_lookup_of_some _ _ _ _ ?_
      rw [lookupKV_append_of_none _ hnone]
      simp [lookupKV]
    · have h' : lookupKV k2 tl = some v2 := by
        rw [lookupKV] at h; simp [he] at h; exact h
      by_cases hc : containsKey k2' t
      · simp only [hc, if_true]
        exact ih t k2 v2 h' hnone
      · simp only [hc, if_false]
        refine ih (t ++ [(k2', v2')]) k2 v2 h' ?_
        rw [lookupKV_append_of_none _ hnone]
        simp [lookupKV, he]

/-! ## `load_config` structure lemmas -/

theorem containsKey_of_lookupKV_some {c : Cfg} {k : String} {v : TomlVal}
    (h : lookupKV k c = some v) : containsKey k c = true := by
  rw [containsKey, h]; rfl

theorem mem_of_lookupKV_some :
    ∀ {c : Cfg} {k : String} {v : TomlVal},
      lookupKV k c = some v → (k, v) ∈ c := by
  intro c
  induction c with
  | nil => intro k v h; cases h
  | cons hd tl ih =>
    obtain ⟨k', w⟩ := hd
    intro k v h
    rw [lookupKV] at h
    by_cases he : k' = k
    · subst he
      rw [if_pos rfl] at h
      injection h with h; subst h
      exact List.mem_cons_self _ _
    · rw [if_neg he] at h
      exact List.mem_cons_of_mem _ (ih h)

theorem not_mem_map_fst_of_lookupKV_none {c : Cfg} {k : String}
    (h : lookupKV k c = none) : k ∉ c.map Prod.fst := by
  intro hm
  obtain ⟨⟨a, b⟩, hmem, hfst⟩ := List.mem_map.mp hm
  subst hfst
  have := lookupKV_isSome_of_mem hmem
  rw [h] at this
  cases this

theorem lookupKV_pathStep_ne (env : OsEnv) (b : Bool) (fname : String)
    (c : Cfg) {k : String} (h : k ≠ "path") :
    lookupKV k (pathStep env b fname c) = lookupKV k c := by
  rw [pathStep]
  split_ifs with h1 h2
  · rfl
  · exact lookupKV_setKey_ne _ _ (fun he => h he.symm)
  · exact lookupKV_setKey_ne _ _ (fun he => h he.symm)

theorem pathStep_of_containsKey (env : OsEnv) (b : Bool) (fname : String)
    {c : Cfg} (h : containsKey "path" c = true) :
    pathStep env b fname c = c := by
  rw [pathStep, if_pos h]

theorem containsKey_pathStep (env : OsEnv) (b : Bool) (fname : String)
    (c : Cfg) : containsKey "path" (pathStep env b fname c) = true := by
  rw [pathStep]
  split_ifs with h1 h2
  · exact h1
  · rw [containsKey, lookupKV_setKey_self]; rfl
  · rw [containsKey, lookupKV_setKey_self]; rfl

theorem lookupKV_projectStep_ne (pv : String) (c : Cfg) {k : String}
    (h : k ≠ "project") :
    lookupKV k (projectStep pv c) = lookupKV k c := by
  rw [projectStep]
  split_ifs with h1
  · rfl
  · exact lookupKV_setKey_ne _ _ (fun he => h he.symm)

theorem projectStep_of_containsKey (pv : String) {c : Cfg}
    (h : containsKey "project" c = true) : projectStep pv c = c := by
  rw [projectStep, if_pos h]

/-- Unfolding `load_config` on a successfully parsed file. -/
theorem load_config_ok_file (env : OsEnv) (cfg : Cfg) (fn : Option String) :
    load_config env (some (.ok cfg)) fn =
      (match lookupKV "path" (pathStep env true (fn.getD "config.toml") cfg) with
       | some (.str p) =>
         mergeDefaults DEFAULT_CONFIG
           (projectStep (full_path env p)
             (setKey (pathStep env true (fn.getD "config.toml") cfg) "path"
               (.str (full_path env p))))
       | some _ => .error "TypeError: expected str, bytes or os.PathLike object"
       | none => .error "unreachable: path was just inserted") := rfl

/-- Destructuring a successful `load_config` run on a parsed file: the
result is `mergeDefaults` applied to a configuration that agrees with the
parsed one away from `path`/`project`, has a normalized `path`, and keeps an
explicit `project`. -/
theorem load_config_ok_elim (env : OsEnv) (cfg : Cfg) (fn : Option String)
    (m : Cfg) (h : load_config env (some (.ok cfg)) fn = .ok m) :
    ∃ c3, mergeDefaults DEFAULT_CONFIG c3 = .ok m
      ∧ (∀ k, k ≠ "path" → k ≠ "project" → lookupKV k c3 = lookupKV k cfg)
      ∧ (∀ p, lookupKV "path" cfg = some (.str p) →
          lookupKV "path" c3 = some (.str (full_path env p)))
      ∧ (∀ w, lookupKV "project" cfg = some w →
          lookupKV "project" c3 = some w) := by
  rw [load_config_ok_file] at h
  split at h
  · rename_i p hlp
    refine ⟨projectStep (full_path env p)
      (setKey (pathStep env true (fn.getD "config.toml") cfg) "path"
        (.str (full_path env p))), h, ?_, ?_, ?_⟩
    · intro k hkp hkj
      rw [lookupKV_projectStep_ne _ _ hkj,
        lookupKV_setKey_ne _ _ (fun he => hkp he.symm),
        lookupKV_pathStep_ne _ _ _ _ hkp]
    · intro p' hp'
      have hcp : containsKey "path" cfg = true := containsKey_of_lookupKV_some hp'
      rw [pathStep_of_containsKey _ _ _ hcp] at hlp
      rw [hp'] at hlp
      injection hlp with hlp
      injection hlp with hlp
      subst hlp
      rw [lookupKV_projectStep_ne _ _ (by decide), lookupKV_setKey_self]
    · intro w hw
      have hkj : ("project" : String) ≠ "path" := by decide
      have hl2 : lookupKV "project"
          (setKey (pathStep env true (fn.getD "config.toml") cfg) "path"
            (.str (full_path env p))) = some w := by
        rw [lookupKV_setKey_ne _ _ (fun he => hkj he.symm),
          lookupKV_pathStep_ne _ _ _ _ hkj, hw]
      rw [projectStep_of_containsKey _ (containsKey_of_lookupKV_some hl2)]
      exact hl2
  · rename_i hne hlp
    cases h
  · cases h

/-- Every top-level default key is one of the four section names. -/
theorem DEFAULT_CONFIG_keys {k : String} {v : TomlVal}
    (h : (k, v) ∈ DEFAULT_CONFIG) :
    k = "calibration" ∨ k = "pipeline" ∨ k = "filter" ∨ k = "labeling" := by
  rw [DEFAULT_CONFIG] at h
  rcases List.mem_cons.mp h with h1 | h
  · exact Or.inl (congrArg Prod.fst h1)
  rcases List.mem_cons.mp h with h1 | h
  · exact Or.inr (Or.inl (congrArg Prod.fst h1))
  rcases List.mem_cons.mp h with h1 | h
  · exact Or.inr (Or.inr (Or.inl (congrArg Prod.fst h1)))
  rcases List.mem_cons.mp h with h1 | h
  · exact Or.inr (Or.inr (Or.inr (congrArg Prod.fst h1)))
  · cases h

theorem DEFAULT_CONFIG_key_ne_path {k : String} {v : TomlVal}
    (h : (k, v) ∈ DEFAULT_CONFIG) : k ≠ "path" := by
  rcases DEFAULT_CONFIG_keys h with h1 | h1 | h1 | h1 <;> subst h1 <;> decide

theorem DEFAULT_CONFIG_key_ne_project {k : String} {v : TomlVal}
    (h : (k, v) ∈ DEFAULT_CONFIG) : k ≠ "project" := by
  rcases DEFAULT_CONFIG_keys h with h1 | h1 | h1 | h1 <;> subst h1 <;> decide

theorem DEFAULT_CONFIG_nodup : (DEFAULT_CONFIG.map Prod.fst).Nodup := by
  decide

/-- Is this value a nested mapping? (`isinstance(v, dict)`) -/
def isTableV : TomlVal → Bool
  | .table _ => true
  | _ => false

/-- Does the default tree hold a nested mapping at this key? -/
def defaultIsTable (k : String) : Bool :=
  match lookupKV k DEFAULT_CONFIG with
  | some (.table _) => true
  | _ => false

theorem ne_table_of_isTableV_false {v : TomlVal} (h : isTableV v = false) :
    ∀ t, v ≠ .table t := by
  intro t he
  subst he
  cases h

theorem exists_table_of_isTableV_true {v : TomlVal} (h : isTableV v = true) :
    ∃ t, v = .table t := by
  cases v <;> first
    | exact ⟨_, rfl⟩
    | cases h

/-- **C1 (amended).**  Whenever `load_config` succeeds on a parsed file, it
back-fills every missing top-level default key with its whole default value
and, for each default section configured as a mapping, back-fills every
missing one-level-nested default key; every explicitly supplied value —
top-level or one-level-nested — is left unchanged, *except* the top-level
`path` value, which is replaced by its normalized absolute form
(`full_path`).  (The original claim, which asserted that *every* explicitly
supplied value is unchanged, fails on `path`; see the counterexample.) -/
theorem c1_load_config_backfill (env : OsEnv) (cfg : Cfg) (fn : Option String)
    (m : Cfg) (hok : load_config env (some (.ok cfg)) fn = .ok m) :
    (∀ k v, lookupKV k DEFAULT_CONFIG = some v → lookupKV k cfg = none →
        lookupKV k m = some v)
    ∧ (∀ k dv t, lookupKV k DEFAULT_CONFIG = some (.table dv) →
        lookupKV k cfg = some (.table t) →
        ∃ t', lookupKV k m = some (.table t')
          ∧ (∀ k2 w, lookupKV k2 t = some w → lookupKV k2 t' = some w)
          ∧ (∀ k2 v2, lookupKV k2 dv = some v2 → lookupKV k2 t = none →
              lookupKV k2 t' = some v2))
    ∧ (∀ k w, lookupKV k cfg = some w → k ≠ "path" →
        (defaultIsTable k = false ∨ isTableV w = false) →
        lookupKV k m = some w)
    ∧ (∀ p, lookupKV "path" cfg = some (.str p) →
        lookupKV "path" m = some (.str (full_path env p))) := by
  obtain ⟨c3, hmge, hA, hB, hC⟩ := load_config_ok_elim env cfg fn m hok
  refine ⟨?_, ?_, ?_, ?_⟩
  · -- missing top-level default keys are back-filled
    intro k v hd hnone
    have hmem := mem_of_lookupKV_some hd
    have hkp := DEFAULT_CONFIG_key_ne_path hmem
    have hkj := DEFAULT_CONFIG_key_ne_project hmem
    have h3 : lookupKV k c3 = none := by rw [hA k hkp hkj, hnone]
    exact mergeDefaults_lookup_of_missing _ _ _ _ _ hmge DEFAULT_CONFIG_nodup
      hmem h3
  · -- sections configured as mappings are back-filled one level deep
    intro k dv t hd ht
    have hmem := mem_of_lookupKV_some hd
    have hkp := DEFAULT_CONFIG_key_ne_path hmem
    have hkj := DEFAULT_CONFIG_key_ne_project hmem
    have h3 : lookupKV k c3 = some (.table t) := by
      rw [hA k hkp hkj]; exact ht
    obtain ⟨nv, hs, hm⟩ := mergeDefaults_lookup_of_section _ _ _ _ _ _ hmge
      DEFAULT_CONFIG_nodup hmem h3
    rw [mergeSection_table] at hs
    injection hs with hs; subst hs
    refine ⟨backfillTable dv t, hm, ?_, ?_⟩
    · intro k2 w hw; exact backfillTable_lookup_of_some _ _ _ _ hw
    · intro k2 v2 h2 hn2; exact backfillTable_lookup_of_none _ _ _ _ h2 hn2
  · -- explicitly supplied values other than `path` are preserved
    intro k w hw hkp hcond
    have h3 : lookupKV k c3 = some w := by
      by_cases hkj : k = "project"
      · subst hkj; exact hC w hw
      · rw [hA k hkp hkj]; exact hw
    rcases hd : lookupKV k DEFAULT_CONFIG with _ | v'
    · have hnm := not_mem_map_fst_of_lookupKV_none hd
      rw [mergeDefaults_lookup_of_not_mem _ _ _ _ hmge hnm]
      exact h3
    · have hmem := mem_of_lookupKV_some hd
      by_cases hvt : isTableV v' = true
      · obtain ⟨dv, hdv⟩ := exists_table_of_isTableV_true hvt
        subst hdv
        have hwnt : isTableV w = false := by
          rcases hcond with hc | hc
          · rw [defaultIsTable, hd] at hc; cases hc
          · exact hc
        obtain ⟨nv, hs, hm⟩ := mergeDefaults_lookup_of_section _ _ _ _ _ _
          hmge DEFAULT_CONFIG_nodup hmem h3
        rw [hm, mergeSection_nontable hs (ne_table_of_isTableV_false hwnt)]
      · have hvnt : ∀ dv, v' ≠ .table dv :=
          ne_table_of_isTableV_false (Bool.not_eq_true _ ▸ hvt)
        rw [mergeDefaults_lookup_of_nontable _ _ _ _ _ hmge
          DEFAULT_CONFIG_nodup hmem hvnt (containsKey_of_lookupKV_some h3)]
        exact h3
  · -- an explicit `path` is normalized in place
    intro p hp
    have h3 := hB p hp
    have hnp : "path" ∉ DEFAULT_CONFIG.map Prod.fst := by decide
    rw [mergeDefaults_lookup_of_not_mem _ _ _ _ hmge hnp]
    exact h3

/-- **C1 counterexample.**  A file that explicitly supplies
`path = "/a/"` does not come back unchanged: `load_config` rewrites the
value to its normalized form `"/a"`, so the claim that every explicitly
supplied top-level value is left unchanged is false. -/
theorem c1_counterexample :
    ((load_config ⟨"/home/u", "/data"⟩
        (some (Except.ok [("path", TomlVal.str "/a/")])) none).toOption.bind
      (fun m => lookupKV "path" m)) = some (TomlVal.str "/a")
    ∧ some (TomlVal.str "/a") ≠ some (TomlVal.str "/a/") := by
  refine ⟨rfl, ?_⟩
  intro h
  injection h with h
  injection h with h
  exact absurd h (by decide)

/-- **C1 witness**: a concrete run in which a missing section (`labeling`)
is back-filled whole. -/
theorem c1_witness :
    ((load_config ⟨"/home/u", "/data"⟩
        (some (Except.ok
          [("filter", TomlVal.table [("enabled", TomlVal.bool true)]),
           ("custom", TomlVal.int 7)]))
        (some "proj/config.toml")).toOption.bind
      (fun m => lookupKV "labeling" m)) =
      some (TomlVal.table [("dot_size", TomlVal.int 7)]) := by
  obtain ⟨m, hm⟩ : ∃ m, load_config ⟨"/home/u", "/data"⟩
      (some (Except.ok
        [("filter", TomlVal.table [("enabled", TomlVal.bool true)]),
         ("custom", TomlVal.int 7)]))
      (some "proj/config.toml") = .ok m := ⟨_, rfl⟩
  have h := (c1_load_config_backfill _ _ _ _ hm).1 "labeling"
    (TomlVal.table [("dot_size", TomlVal.int 7)]) rfl rfl
  rw [hm]
  simpa using h

/-- `expanduser` is the identity on paths that start with a slash. -/
theorem expanduserP_slash (home p : String)
    (h : startsWithS p "/" = true) : expanduserP home p = p := by
  rw [expanduserP]
  split
  · rfl
  · rename_i c rest heq
    rw [startsWithS, heq] at h
    have hc : c = '/' := by
      simp [List.isPrefixOf] at h
      exact h.symm
    rw [if_neg (by rw [hc]; decide)]

/-- **C5.**  Applied to a nonexistent path, `load_config` raises nothing and
returns exactly the default tree preceded by a `path` key holding the
normalized current working directory and a `project` key holding the
basename of that path.  The hypotheses say that the OS-reported working
directory is an absolute, already-normalized path, which is what
`os.getcwd` returns. -/
theorem c5_load_config_missing_file (env : OsEnv) (fn : Option String)
    (h1 : startsWithS env.cwd "/" = true)
    (h2 : normpathP env.cwd = env.cwd) :
    load_config env none fn =
      .ok (("path", TomlVal.str (normpathP env.cwd))
        :: ("project", TomlVal.str (basenameP (normpathP env.cwd)))
        :: DEFAULT_CONFIG) := by
  have hfull : full_path env env.cwd = env.cwd := by
    rw [full_path, expanduserP_slash _ _ h1, abspathP, if_pos h1, h2, h2]
  have key : load_config env none fn =
      mergeDefaults DEFAULT_CONFIG
        (projectStep (full_path env env.cwd)
          (setKey [("path", TomlVal.str env.cwd)] "path"
            (TomlVal.str (full_path env env.cwd)))) := rfl
  rw [key, hfull, h2]
  rfl

/-- **C5 witness**: evaluated at a concrete environment. -/
theorem c5_witness :
    load_config ⟨"/home/u", "/data/proj"⟩ none none =
      .ok (("path", TomlVal.str (normpathP "/data/proj"))
        :: ("project", TomlVal.str (basenameP (normpathP "/data/proj")))
        :: DEFAULT_CONFIG) :=
  c5_load_config_missing_file ⟨"/home/u", "/data/proj"⟩ none (by decide)
    (by decide)

/-- A parsed configuration is well-typed for the loader when its `path`
value (if any) is a string and every top-level key it shares with a
default section maps to a nested mapping. -/
def wellTypedB (cfg : Cfg) : Bool :=
  (match lookupKV "path" cfg with
   | none => true
   | some (.str _) => true
   | some _ => false) &&
  DEFAULT_CONFIG.all (fun kv =>
    match kv.2 with
    | .table _ =>
      (match lookupKV kv.1 cfg with
       | none => true
       | some (.table _) => true
       | some _ => false)
    | _ => true)

/-- The defaults loop succeeds whenever every configured value at a default
section key is a nested mapping. -/
theorem mergeDefaults_isOk :
    ∀ (ds cfg : Cfg), (ds.map Prod.fst).Nodup →
      (∀ k dv cur, (k, TomlVal.table dv) ∈ ds → lookupKV k cfg = some cur →
        isTableV cur = true) →
      isOkB (mergeDefaults ds cfg) = true := by
  intro ds
  induction ds with
  | nil => intro cfg _ _; rfl
  | cons hd tl ih =>
    obtain ⟨k, v⟩ := hd
    intro cfg hnd hgood
    have hnd' := hnd
    rw [List.map_cons, List.nodup_cons] at hnd'
    have hktl : k ∉ tl.map Prod.fst := hnd'.1
    have hndtl : (tl.map Prod.fst).Nodup := hnd'.2
    rw [mergeDefaults]
    split
    · -- key absent: appended, loop continues
      rename_i hnone
      refine ih _ hndtl ?_
      intro k' dv' cur' hmem hl
      by_cases he : k = k'
      · subst he
        exact absurd (List.mem_map.mpr ⟨(k, TomlVal.table dv'), hmem, rfl⟩)
          hktl
      · rw [lookupKV_append_single_ne _ _ he] at hl
        exact hgood k' dv' cur' (List.mem_cons_of_mem _ hmem) hl
    · rename_i cur heq
      split
      · -- table default with configured value: `mergeSection` succeeds
        rename_i dv
        have hcur := hgood k dv cur (List.mem_cons_self _ _) heq
        obtain ⟨t, ht⟩ := exists_table_of_isTableV_true hcur
        subst ht
        rw [mergeSection_table]
        refine ih _ hndtl ?_
        intro k' dv' cur' hmem hl
        by_cases he : k = k'
        · subst he
          exact absurd (List.mem_map.mpr ⟨(k, TomlVal.table dv'), hmem, rfl⟩)
            hktl
        · rw [lookupKV_setKey_ne _ _ he] at hl
          exact hgood k' dv' cur' (List.mem_cons_of_mem _ hmem) hl
      · -- non-table default: loop continues unchanged
        refine ih _ hndtl ?_
        intro k' dv' cur' hmem hl
        exact hgood k' dv' cur' (List.mem_cons_of_mem _ hmem) hl

/-- If the parsed mapping is well-typed, `pathStep` leaves a string at
`path`. -/
theorem pathStep_path_str (env : OsEnv) (b : Bool) (fname : String)
    (cfg : Cfg)
    (hp : (match lookupKV "path" cfg with
           | none => true
           | some (.str _) => true
           | some _ => false) = true) :
    ∃ p, lookupKV "path" (pathStep env b fname cfg) = some (.str p) := by
  rw [pathStep]
  split_ifs with hc h2
  · rw [containsKey] at hc
    rcases hl : lookupKV "path" cfg with _ | v
    · rw [hl] at hc; cases hc
    · rw [hl] at hp
      rcases v with s | n | q | bb | l | t
      · exact ⟨s, rfl⟩
      · cases hp
      · cases hp
      · cases hp
      · cases hp
      · cases hp
  · exact ⟨_, lookupKV_setKey_self _ _ _⟩
  · exact ⟨_, lookupKV_setKey_self _ _ _⟩

/-- **C6 (amended).**  `load_config` raises no error for a missing file; it
propagates a parse error for a malformed file; and for a well-formed file it
returns a mapping without raising *provided the parsed values are
well-typed for the loader* — the `path` value (if any) a string and every
top-level key shared with a default section a nested mapping.  (The
original claim promised success for every well-formed file whatever the
types of its values; that fails, see the counterexample.) -/
theorem c6_load_config_errors :
    (∀ (env : OsEnv) (fn : Option String),
      isOkB (load_config env none fn) = true)
    ∧ (∀ (env : OsEnv) (e : String) (fn : Option String),
      load_config env (some (.error e)) fn = .error e)
    ∧ (∀ (env : OsEnv) (cfg : Cfg) (fn : Option String),
      wellTypedB cfg = true →
      isOkB (load_config env (some (.ok cfg)) fn) = true) := by
  refine ⟨?_, ?_, ?_⟩
  · intro env fn; rfl
  · intro env e fn; rfl
  · intro env cfg fn hwt
    rw [wellTypedB, Bool.and_eq_true] at hwt
    obtain ⟨hpath, hall⟩ := hwt
    obtain ⟨p, hp⟩ := pathStep_path_str env true (fn.getD "config.toml") cfg
      hpath
    rw [load_config_ok_file, hp]
    refine mergeDefaults_isOk _ _ DEFAULT_CONFIG_nodup ?_
    intro k dv cur hmem hl
    have hkp := DEFAULT_CONFIG_key_ne_path hmem
    have hkj := DEFAULT_CONFIG_key_ne_project hmem
    rw [lookupKV_projectStep_ne _ _ hkj,
      lookupKV_setKey_ne _ _ (fun he => hkp he.symm),
      lookupKV_pathStep_ne _ _ _ _ hkp] at hl
    have := List.all_eq_true.mp hall _ hmem
    rw [hl] at this
    rcases cur with s | n | q | bb | l | t
    · cases this
    · cases this
    · cases this
    · cases this
    · cases this
    · rfl

/-- **C6 counterexample.**  The mapping `{pipeline = 5}` parses from a
syntactically well-formed file, yet `load_config` raises: the defaults loop
evaluates `"videos_raw" not in 5`, a `TypeError`. -/
theorem c6_counterexample :
    isOkB (load_config ⟨"/home/u", "/data"⟩
      (some (Except.ok [("pipeline", TomlVal.int 5)])) none) = false := rfl

/-- **C6 witness**: a well-typed well-formed file loads successfully, and a
malformed file propagates its parse error. -/
theorem c6_witness :
    isOkB (load_config ⟨"/home/u", "/data"⟩
      (some (Except.ok [("pipeline", TomlVal.table [("gpus", TomlVal.int 1)]),
        ("nested", TomlVal.table [])])) none) = true
    ∧ load_config ⟨"/home/u", "/data"⟩
        (some (Except.error "toml decode error")) none =
      .error "toml decode error"
    ∧ isOkB (load_config ⟨"/home/u", "/data"⟩ none none) = true :=
  ⟨c6_load_config_errors.2.2 ⟨"/home/u", "/data"⟩
      [("pipeline", TomlVal.table [("gpus", TomlVal.int 1)]),
       ("nested", TomlVal.table [])] none (by decide),
   c6_load_config_errors.2.1 ⟨"/home/u", "/data"⟩ "toml decode error" none,
   c6_load_config_errors.1 ⟨"/home/u", "/data"⟩ none⟩

/-! ## Natural-key sorting

`natural_keys` lives in `anipose/common.py`, which is not among the
provided sources, so it is modelled from the spec. -/

/-- One element of a natural sort key: a numeric run compared by value, or
a plain text run. -/
inductive NToken where
  | num (n : Nat)
  | str (s : String)

/-- Raw alternating runs of digit and non-digit characters. -/
inductive RawTok where
  | digits (l : List Char)
  | other (l : List Char)

/-- Extend the run decomposition by one leading character. -/
def groupTok (c : Char) (acc : List RawTok) : List RawTok :=
  if c.isDigit then
    match acc with
    | .digits l :: rest => .digits (c :: l) :: rest
    | _ => .digits [c] :: acc
  else
    match acc with
    | .other l :: rest => .other (c :: l) :: rest
    | _ => .other [c] :: acc

/-- Decimal value of a digit run. -/
def digitsVal (l : List Char) : Nat :=
  l.foldl (fun a c => a * 10 + (c.toNat - 48)) 0

/-- Modelled from the spec: `natural_keys` (from the missing
`anipose/common.py`) is described as "a sort key that orders embedded
numeric substrings numerically rather than lexicographically"; the string is
cut into maximal digit and non-digit runs and digit runs carry their numeric
value. -/
def natural_keys (s : String) : List NToken :=
  (s.toList.foldr groupTok []).map (fun t =>
    match t with
    | .digits l => .num (digitsVal l)
    | .other l => .str ⟨l⟩)

/-- Lexicographic strict comparison of character lists by code point, the
order Python uses on strings. -/
def charListLt : List Char → List Char → Bool
  | [], [] => false
  | [], _ :: _ => true
  | _ :: _, [] => false
  | a :: as, b :: bs =>
    if a < b then true else if b < a then false else charListLt as bs

/-- Strict comparison of key elements: numbers compare by value, text runs
lexicographically. -/
def NToken.ltB : NToken → NToken → Bool
  | .num a, .num b => a < b
  | .str a, .str b => charListLt a.toList b.toList
  | .num _, .str _ => true
  | .str _, .num _ => false

/-- Lexicographic ≤ on token lists. -/
def lexLe : List NToken → List NToken → Bool
  | [], _ => true
  | _ :: _, [] => false
  | a :: as, b :: bs =>
    if NToken.ltB a b then true
    else if NToken.ltB b a then false
    else lexLe as bs

/-- `natural_keys s ≤ natural_keys t`, the comparison that
`sorted(..., key=natural_keys)` realises. -/
def naturalLe (s t : String) : Bool :=
  lexLe (natural_keys s) (natural_keys t)

/-- Insert into a sorted list (one step of insertion sort). -/
def insertLe {α : Type} (le : α → α → Bool) (x : α) : List α → List α
  | [] => [x]
  | y :: ys => if le x y then x :: y :: ys else y :: insertLe le x ys

/-- `sorted(l, key=...)` modelled as insertion sort by a boolean ≤. -/
def sortByLe {α : Type} (le : α → α → Bool) (l : List α) : List α :=
  l.foldr (insertLe le) []

theorem insertLe_perm {α : Type} (le : α → α → Bool) (x : α) :
    ∀ l : List α, (insertLe le x l).Perm (x :: l) := by
  intro l
  induction l with
  | nil => rfl
  | cons y ys ih =>
    rw [insertLe]
    split_ifs
    · rfl
    · exact ((ih.cons y).trans (List.Perm.swap x y ys))

theorem sortByLe_perm {α : Type} (le : α → α → Bool) (l : List α) :
    (sortByLe le l).Perm l := by
  induction l with
  | nil => rfl
  | cons x xs ih =>
    exact (insertLe_perm le x (sortByLe le xs)).trans (ih.cons x)

/-! ## `__check_progress` (`anipose.py`, lines 350–398), analyzed count -/

/-- The analyzed-count portion of `__check_progress`: glob the raw
raw `.avi` videos (`videosGlob`, in listing order), sort them by natural
keys, count those whose `<basename>.h5` exists in the `pose-2d` directory
(listed by `poseFiles`), and print `(analyzed, total)` only when the
session has at least one video (`none` models "nothing printed"). -/
def check_progress_analyzed (videosGlob poseFiles : List String) :
    Option (Nat × Nat) :=
  let videos := sortByLe naturalLe videosGlob
  let n_analyzed := videos.countP
    (fun v => decide (((splitextP (basenameP v)).1 ++ ".h5") ∈ poseFiles))
  if videos.length > 0 then some (n_analyzed, videos.length) else none

/-! ## `numpy.array_split` (`pose_videos.py`, line 49) -/

/-- Chunk sizes of `numpy.array_split` on a length-`len` list split into
`n` sections: the first `len % n` chunks have `len / n + 1` elements, the
remaining `n - len % n` chunks have `len / n`. -/
def chunkSizes (len n : Nat) : List Nat :=
  List.replicate (len % n) (len / n + 1) ++
    List.replicate (n - len % n) (len / n)

/-- Cut a list into consecutive chunks of the given sizes. -/
def splitSizes {α : Type} : List Nat → List α → List (List α)
  | [], _ => []
  | s :: ss, xs => xs.take s :: splitSizes ss (xs.drop s)

/-- `numpy.array_split(xs, n)`. -/
def array_split {α : Type} (xs : List α) (n : Nat) : List (List α) :=
  splitSizes (chunkSizes xs.length n) xs

theorem splitSizes_length {α : Type} :
    ∀ (ss : List Nat) (xs : List α), (splitSizes ss xs).length = ss.length := by
  intro ss
  induction ss with
  | nil => intro xs; rfl
  | cons s ss ih =>
    intro xs
    rw [splitSizes, List.length_cons, ih, List.length_cons]

theorem chunkSizes_sum (len n : Nat) (hn : 0 < n) :
    (chunkSizes len n).sum = len := by
  rw [chunkSizes, List.sum_append, List.sum_replicate, List.sum_replicate,
    smul_eq_mul, smul_eq_mul]
  have h1 : len % n < n := Nat.mod_lt _ hn
  have hle : len % n * (len / n) ≤ n * (len / n) :=
    Nat.mul_le_mul_right _ (le_of_lt h1)
  rw [Nat.mul_add, Nat.mul_one, Nat.sub_mul, Nat.add_comm (len % n * (len / n)),
    Nat.add_assoc, Nat.add_sub_cancel' hle, Nat.mod_add_div]

theorem splitSizes_join {α : Type} :
    ∀ (ss : List Nat) (xs : List α), ss.sum = xs.length →
      (splitSizes ss xs).flatten = xs := by
  intro ss
  induction ss with
  | nil =>
    intro xs h
    rw [List.sum_nil] at h
    rw [splitSizes, List.flatten_nil, List.length_eq_zero.mp h.symm]
  | cons s ss ih =>
    intro xs h
    rw [List.sum_cons] at h
    rw [splitSizes, List.flatten_cons, ih (xs.drop s) (by rw [List.length_drop]; omega),
      List.take_append_drop]

theorem splitSizes_chunk_lengths {α : Type} :
    ∀ (ss : List Nat) (xs : List α), ss.sum ≤ xs.length →
      ∀ c ∈ splitSizes ss xs, c.length ∈ ss := by
  intro ss
  induction ss with
  | nil => intro xs _ c hc; cases hc
  | cons s ss ih =>
    intro xs h c hc
    rw [List.sum_cons] at h
    rcases List.mem_cons.mp hc with h1 | h1
    · subst h1
      rw [List.length_take]
      have : min s xs.length = s := Nat.min_eq_left (by omega)
      rw [this]
      exact List.mem_cons_self _ _
    · refine List.mem_cons_of_mem _ (ih (xs.drop s) ?_ c h1)
      rw [List.length_drop]; omega

/-- **C3.**  For every video list and every worker count `G ≥ 1`, the static
partition used by the pose-inference stage yields exactly `G` chunks whose
sizes pairwise differ by at most one and whose in-order concatenation is the
original list. -/
theorem c3_array_split (videos : List String) (G : Nat) (hG : 1 ≤ G) :
    (array_split videos G).length = G
    ∧ (∀ c ∈ array_split videos G, ∀ c' ∈ array_split videos G,
        c.length ≤ c'.length + 1)
    ∧ (array_split videos G).flatten = videos := by
  have hpos : 0 < G := hG
  have hmod : videos.length % G < G := Nat.mod_lt _ hpos
  refine ⟨?_, ?_, ?_⟩
  · rw [array_split, splitSizes_length, chunkSizes, List.length_append,
      List.length_replicate, List.length_replicate]
    omega
  · intro c hc c' hc'
    have hsum := chunkSizes_sum videos.length G hpos
    have h1 := splitSizes_chunk_lengths _ _ (le_of_eq hsum) c hc
    have h2 := splitSizes_chunk_lengths _ _ (le_of_eq hsum) c' hc'
    rw [chunkSizes] at h1 h2
    rcases List.mem_append.mp h1 with ha | ha <;>
      rcases List.mem_append.mp h2 with hb | hb <;>
      have e1 := List.eq_of_mem_replicate ha <;>
      have e2 := List.eq_of_mem_replicate hb <;>
      omega
  · exact splitSizes_join _ _ (chunkSizes_sum _ _ hpos)

/-- **C3 witness**: three videos over two workers. -/
theorem c3_witness :
    (array_split ["a", "b", "c"] 2).length = 2
    ∧ (array_split ["a", "b", "c"] 2).flatten = ["a", "b", "c"] :=
  ⟨(c3_array_split ["a", "b", "c"] 2 (by decide)).1,
   (c3_array_split ["a", "b", "c"] 2 (by decide)).2.2⟩

/-- **C8.**  The natural-key sort orders embedded numeric substrings
numerically: sorting `["v1.avi", "v10.avi", "v2.avi"]` yields
`["v1.avi", "v2.avi", "v10.avi"]`. -/
theorem c8_natural_sort_example :
    sortByLe naturalLe ["v1.avi", "v10.avi", "v2.avi"] =
      ["v1.avi", "v2.avi", "v10.avi"] := by decide

/-- **C7.**  For a session with `N` raw videos of which `M < N` have a pose
output file, the progress check reports exactly `M` analyzed out of `N`. -/
theorem c7_check_progress (videosGlob poseFiles : List String) (M N : Nat)
    (hN : N = videosGlob.length)
    (hM : M = videosGlob.countP
      (fun v => decide (((splitextP (basenameP v)).1 ++ ".h5") ∈ poseFiles)))
    (hlt : M < N) :
    check_progress_analyzed videosGlob poseFiles = some (M, N) := by
  subst hN; subst hM
  have hperm := sortByLe_perm naturalLe videosGlob
  have hpos : 0 < videosGlob.length :=
    lt_of_le_of_lt (Nat.zero_le _) hlt
  rw [check_progress_analyzed]
  simp only [hperm.countP_eq, hperm.length_eq]
  rw [if_pos hpos]

/-- **C7 witness**: two raw videos, one pose file. -/
theorem c7_witness :
    check_progress_analyzed
      ["sess/videos-raw/v1.avi", "sess/videos-raw/v2.avi"] ["v1.h5"] =
      some (1, 2) :=
  c7_check_progress _ _ 1 2 (by decide) (by decide) (by decide)

/-! ## `process_session` (`pose_videos.py`, lines 27–55) -/

/-- `len(gpus)` and `iter(gpus)` for a TOML value, as Python sees them:
lists, strings and dicts are sized iterables (a string iterates its
characters, a dict its keys); ints, floats and bools raise `TypeError`.
Both succeed or fail together, which is how the `try: n_gpus = len(gpus)`
block and the later `zip(..., gpus)` interact. -/
def pythonSizedIter : TomlVal → Option (List TomlVal × Nat)
  | .arr l => some (l, l.length)
  | .str s => some (s.toList.map (fun c => .str ⟨[c]⟩), s.toList.length)
  | .table t => some (t.map (fun kv => .str kv.1), t.length)
  | _ => none

/-- The observable effects of one `process_session` call. -/
structure SessionRun where
  madeDirs : List String
  poolSize : Nat
  tasks : Except String (List (List String × TomlVal))

/-- `process_session` (`pose_videos.py`, lines 27–55): glob and
naturally-sort the `.avi` videos of the session (`videosGlob` is the glob
result), create `outdir` when there is at least one video, try
`len(gpus)` — on `TypeError` set `gpus = None` and `n_gpus = 1` — split the
videos into `n_gpus` chunks, and build the `starmap` work items
`zip(repeat(config_name), chunks, repeat(outdir), gpus)`.  When `gpus` is
`None`, `zip` itself raises `TypeError`, recorded as an `error` result. -/
def process_session (gpus : TomlVal) (outdir : String)
    (videosGlob : List String) : SessionRun :=
  let videos := sortByLe naturalLe videosGlob
  let lenR := pythonSizedIter gpus
  let n_gpus := match lenR with | some (_, n) => n | none => 1
  let made := if videos.length > 0 then [outdir] else []
  let chunks := array_split videos n_gpus
  match lenR with
  | none =>
    ⟨made, n_gpus, .error "TypeError: zip argument #4 must support iteration"⟩
  | some (gl, _) => ⟨made, n_gpus, .ok (chunks.zip gl)⟩

/-- **C2 (code evidence).**  With the default scalar `pipeline.gpus = 0`,
`len(gpus)` raises `TypeError`, the handler sets `gpus = None` and
`n_gpus = 1` — so the pool size is 1 as the claim says — but the call then
crashes: `zip(repeat(config_name), videos_in_chunks, repeat(outdir), gpus)`
receives `None` for its fourth argument and raises `TypeError`, so no batch
is ever dispatched. -/
theorem c2_process_session_typeerror :
    (process_session (TomlVal.int 0) "sess/pose-2d"
      ["sess/videos-raw/vid1.avi"]).poolSize = 1
    ∧ (process_session (TomlVal.int 0) "sess/pose-2d"
        ["sess/videos-raw/vid1.avi"]).tasks =
      Except.error "TypeError: zip argument #4 must support iteration" :=
  ⟨rfl, rfl⟩

theorem splitSizes_replicate_zero_nil {α : Type} :
    ∀ n : Nat, splitSizes (List.replicate n 0) ([] : List α) =
      List.replicate n [] := by
  intro n
  induction n with
  | zero => rfl
  | succ k ih =>
    rw [List.replicate_succ, splitSizes, List.take_nil, List.drop_nil, ih,
      List.replicate_succ]

theorem array_split_nil {α : Type} (n : Nat) :
    array_split ([] : List α) n = List.replicate n [] := by
  rw [array_split, List.length_nil]
  have h1 : chunkSizes 0 n = List.replicate n 0 := by
    rw [chunkSizes, Nat.zero_mod, Nat.zero_div, Nat.sub_zero,
      List.replicate_zero, List.nil_append]
  rw [h1, splitSizes_replicate_zero_nil]

theorem eq_nil_of_mem_array_split_nil {α : Type} {a : List α} {n : Nat}
    (h : a ∈ array_split ([] : List α) n) : a = [] := by
  rw [array_split_nil] at h
  exact List.eq_of_mem_replicate h

/-- **C9.**  For a session whose raw-video folder holds no `.avi` file,
`process_session` creates no directory, and every chunk it would hand to a
worker is empty (so the stage creates no filesystem path at all). -/
theorem c9_process_session_no_videos (gpus : TomlVal) (outdir : String) :
    (process_session gpus outdir []).madeDirs = []
    ∧ (∀ tasks, (process_session gpus outdir []).tasks = .ok tasks →
        ∀ t ∈ tasks, t.1 = []) := by
  constructor
  · cases gpus <;> rfl
  · intro tasks ht t hmem
    obtain ⟨a, b⟩ := t
    rcases gpus with s | n | q | bb | l | tb
    · -- string: a sized iterable of characters
      injection ht with ht; subst ht
      exact eq_nil_of_mem_array_split_nil (List.of_mem_zip hmem).1
    · cases ht
    · cases ht
    · cases ht
    · injection ht with ht; subst ht
      exact eq_nil_of_mem_array_split_nil (List.of_mem_zip hmem).1
    · injection ht with ht; subst ht
      exact eq_nil_of_mem_array_split_nil (List.of_mem_zip hmem).1

/-- **C9 witness**: a GPU list of one entry, empty session. -/
theorem c9_witness :
    (process_session (TomlVal.arr [TomlVal.int 0]) "sess/pose-2d"
      []).madeDirs = []
    ∧ ([] : List String) = [] :=
  ⟨(c9_process_session_no_videos (TomlVal.arr [TomlVal.int 0])
      "sess/pose-2d").1,
   (c9_process_session_no_videos (TomlVal.arr [TomlVal.int 0])
      "sess/pose-2d").2 [([], TomlVal.int 0)] rfl ([], TomlVal.int 0)
     (List.mem_cons_self _ _)⟩

/-! ## `rename_dlc_files` and `process_gpu_batch`
(`pose_videos.py`, lines 19–24 and 58–79)

A directory is modelled by its listing: the list of file names it contains
(no duplicates), in listing order.  All names are relative to the one
folder these functions touch. -/

/-- Creating a file: a no-op if the name exists, else it appears at the end
of the listing. -/
def createFile (fs : List String) (f : String) : List String :=
  if f ∈ fs then fs else fs ++ [f]

/-- `os.rename(old, new)` inside one folder: `old` disappears and `new` is
silently overwritten if it already exists. -/
def renameFile (fs : List String) (old new : String) : List String :=
  createFile (fs.erase old) new

/-- `rename_dlc_files(folder, base)`: snapshot the files whose names start
with `base` (`glob(join(folder, base + "*"))`, which for the nonempty
basenames used here is exactly a prefix match), then rename each to `base`
plus its extension. -/
def rename_dlc_files (fs : List String) (base : String) : List String :=
  (fs.filter (fun g => startsWithS g base)).foldl
    (fun s f => renameFile s f (base ++ (splitextP f).2)) fs

theorem createFile_nodup {fs : List String} (f : String)
    (h : fs.Nodup) : (createFile fs f).Nodup := by
  rw [createFile]
  split_ifs with hc
  · exact h
  · rw [← List.concat_eq_append]
    exact List.Nodup.concat hc h

theorem mem_createFile {fs : List String} {f g : String} :
    g ∈ createFile fs f ↔ g ∈ fs ∨ g = f := by
  rw [createFile]
  split_ifs with hc
  · constructor
    · exact Or.inl
    · rintro (h | rfl)
      · exact h
      · exact hc
  · rw [List.mem_append, List.mem_singleton]

theorem renameFile_nodup {fs : List String} (old new : String)
    (h : fs.Nodup) : (renameFile fs old new).Nodup :=
  createFile_nodup _ (h.erase old)

theorem mem_renameFile {fs : List String} (hnd : fs.Nodup)
    {old new g : String} :
    g ∈ renameFile fs old new ↔ (g ∈ fs ∧ g ≠ old) ∨ g = new := by
  rw [renameFile, mem_createFile, List.Nodup.mem_erase_iff hnd]
  constructor
  · rintro (⟨hne, hin⟩ | rfl)
    · exact Or.inl ⟨hin, hne⟩
    · exact Or.inr rfl
  · rintro (⟨hin, hne⟩ | rfl)
    · exact Or.inl ⟨hne, hin⟩
    · exact Or.inr rfl

/-- The rename loop over a snapshot `todo`: afterwards the folder holds
exactly the untouched files plus one file per distinct target extension.
The hypothesis says each planned target name re-splits into `base` and the
same extension, which holds for ordinary names (`base` nonempty, extensions
of the form `.xyz`). -/
theorem rename_fold_spec (base : String) :
    ∀ (todo s : List String), s.Nodup →
      (∀ f ∈ todo,
        splitextP (base ++ (splitextP f).2) = (base, (splitextP f).2)) →
      ((∀ g, g ∈ todo.foldl
          (fun s f => renameFile s f (base ++ (splitextP f).2)) s ↔
          ((g ∈ s ∧ g ∉ todo) ∨ ∃ f ∈ todo, g = base ++ (splitextP f).2))
        ∧ (todo.foldl
            (fun s f => renameFile s f (base ++ (splitextP f).2)) s).Nodup) := by
  intro todo
  induction todo with
  | nil =>
    intro s hnd _
    exact ⟨fun g => by simp, hnd⟩
  | cons f0 rest ih =>
    intro s hnd hwb
    rw [List.foldl_cons]
    obtain ⟨ihm, ihnd⟩ := ih (renameFile s f0 (base ++ (splitextP f0).2))
      (renameFile_nodup _ _ hnd)
      (fun f hf => hwb f (List.mem_cons_of_mem _ hf))
    refine ⟨?_, ihnd⟩
    intro g
    rw [ihm g]
    constructor
    · rintro (⟨hg1, hgr⟩ | ⟨f, hf, rfl⟩)
      · rcases (mem_renameFile hnd).mp hg1 with ⟨hgs, hgf0⟩ | rfl
        · refine Or.inl ⟨hgs, ?_⟩
          intro hmem
          rcases List.mem_cons.mp hmem with he | hr
          · exact hgf0 he
          · exact hgr hr
        · exact Or.inr ⟨f0, List.mem_cons_self _ _, rfl⟩
      · exact Or.inr ⟨f, List.mem_cons_of_mem _ hf, rfl⟩
    · rintro (⟨hgs, hgnot⟩ | ⟨f, hf, rfl⟩)
      · have hgf0 : g ≠ f0 := fun he => hgnot (he ▸ List.mem_cons_self _ _)
        have hgr : g ∉ rest := fun hr => hgnot (List.mem_cons_of_mem _ hr)
        exact Or.inl ⟨(mem_renameFile hnd).mpr (Or.inl ⟨hgs, hgf0⟩), hgr⟩
      · rcases List.mem_cons.mp hf with rfl | hf'
        · by_cases hgr : (base ++ (splitextP f).2) ∈ rest
          · -- the target coincides with a later matched file, which is
            -- then renamed to itself
            have hw1 := hwb f (List.mem_cons_self _ _)
            refine Or.inr ⟨base ++ (splitextP f).2, hgr, ?_⟩
            rw [hw1]
          · exact Or.inl ⟨(mem_renameFile hnd).mpr (Or.inr rfl), hgr⟩
        · exact Or.inr ⟨f, hf', rfl⟩

/-- **C10.**  `rename_dlc_files(folder, base)` renames every file whose
name begins with `base` — including names that merely extend `base`, such
as `vid10…` for `base = "vid1"` — to `base` plus the extension of the file;
matched files sharing an extension collapse onto a single name (the later
rename overwrites the earlier target), so afterwards the folder holds
exactly the unmatched files plus one file per distinct matched extension,
still without duplicates. -/
theorem c10_rename_dlc_files (fs : List String) (base : String)
    (hnd : fs.Nodup)
    (hw : ∀ f ∈ fs, startsWithS f base = true →
      splitextP (base ++ (splitextP f).2) = (base, (splitextP f).2)) :
    (∀ g, g ∈ rename_dlc_files fs base ↔
      ((g ∈ fs ∧ startsWithS g base = false)
        ∨ ∃ f, (f ∈ fs ∧ startsWithS f base = true)
            ∧ g = base ++ (splitextP f).2))
    ∧ (rename_dlc_files fs base).Nodup := by
  have hwb : ∀ f ∈ fs.filter (fun g => startsWithS g base),
      splitextP (base ++ (splitextP f).2) = (base, (splitextP f).2) := by
    intro f hf
    have := List.mem_filter.mp hf
    exact hw f this.1 this.2
  obtain ⟨hm, hnd'⟩ :=
    rename_fold_spec base (fs.filter (fun g => startsWithS g base)) fs hnd hwb
  refine ⟨?_, hnd'⟩
  intro g
  rw [rename_dlc_files, hm g]
  constructor
  · rintro (⟨hgs, hgnot⟩ | ⟨f, hf, rfl⟩)
    · refine Or.inl ⟨hgs, ?_⟩
      rcases hsw : startsWithS g base with _ | _
      · rfl
      · exact absurd (List.mem_filter.mpr ⟨hgs, hsw⟩) hgnot
    · have := List.mem_filter.mp hf
      exact Or.inr ⟨f, ⟨this.1, this.2⟩, rfl⟩
  · rintro (⟨hgs, hsw⟩ | ⟨f, ⟨hf1, hf2⟩, rfl⟩)
    · refine Or.inl ⟨hgs, ?_⟩
      intro hmem
      rw [(List.mem_filter.mp hmem).2] at hsw
      cases hsw
    · exact Or.inr ⟨f, List.mem_filter.mpr ⟨hf1, hf2⟩, rfl⟩

/-- **C10 witness**: `base = "vid1"` matches both `vid1DLCabc.h5` and the
longer-stem `vid10DLCxyz.h5`; both rename to `vid1.h5`, leaving one file. -/
theorem c10_witness :
    ("vid1.h5" ∈ rename_dlc_files
        ["other.txt", "vid1DLCabc.h5", "vid10DLCxyz.h5"] "vid1")
    ∧ ("other.txt" ∈ rename_dlc_files
        ["other.txt", "vid1DLCabc.h5", "vid10DLCxyz.h5"] "vid1")
    ∧ (rename_dlc_files
        ["other.txt", "vid1DLCabc.h5", "vid10DLCxyz.h5"] "vid1").Nodup := by
  obtain ⟨hm, hnd⟩ := c10_rename_dlc_files
    ["other.txt", "vid1DLCabc.h5", "vid10DLCxyz.h5"] "vid1" (by decide)
    (by decide)
  refine ⟨?_, ?_, hnd⟩
  · exact (hm "vid1.h5").mpr
      (Or.inr ⟨"vid1DLCabc.h5", by decide, by decide⟩)
  · exact (hm "other.txt").mpr (Or.inl (by decide))

/-- One iteration of the `process_gpu_batch` loop for video `v`: if
`<stem>.h5` is already in the output listing the iteration is `continue`
(before the rename); otherwise the external analysis writes its files
(`analyzeOut v`, abstract) and they are renamed by `rename_dlc_files`.
The state is the listing of `outdir` paired with the videos analyzed so
far. -/
def process_video_step (analyzeOut : String → List String)
    (acc : List String × List String) (v : String) :
    List String × List String :=
  if ((splitextP (basenameP v)).1 ++ ".h5") ∈ acc.1 then acc
  else
    (rename_dlc_files ((analyzeOut v).foldl createFile acc.1)
        (splitextP (basenameP v)).1,
      acc.2 ++ [v])

/-- `process_gpu_batch` (`pose_videos.py`, lines 58–79). -/
def process_gpu_batch (analyzeOut : String → List String)
    (videos : List String) (fs : List String) :
    List String × List String :=
  videos.foldl (process_video_step analyzeOut) (fs, [])

/-- **C4.**  A video whose expected output `<stem>.h5` is present when its
turn comes is skipped outright — no analysis call, no rename, no change to
any file — and consequently re-running the stage on a batch whose outputs
are all present leaves the output directory exactly as it was, analyzing
nothing. -/
theorem c4_process_gpu_batch_skips (analyzeOut : String → List String)
    (videos fs : List String) :
    (∀ v acc, ((splitextP (basenameP v)).1 ++ ".h5") ∈ acc.1 →
      process_video_step analyzeOut acc v = acc)
    ∧ ((∀ v ∈ videos, ((splitextP (basenameP v)).1 ++ ".h5") ∈ fs) →
      process_gpu_batch analyzeOut videos fs = (fs, [])) := by
  have hstep : ∀ v acc, ((splitextP (basenameP v)).1 ++ ".h5") ∈ acc.1 →
      process_video_step analyzeOut acc v = acc := by
    intro v acc h
    rw [process_video_step, if_pos h]
  refine ⟨hstep, ?_⟩
  induction videos with
  | nil => intro _; rfl
  | cons v vs ih =>
    intro h
    rw [process_gpu_batch, List.foldl_cons,
      hstep v (fs, []) (h v (List.mem_cons_self _ _))]
    have := ih (fun v' hv' => h v' (List.mem_cons_of_mem _ hv'))
    rw [process_gpu_batch] at this
    exact this

/-- **C4 witness**: one video whose output exists; the analyzer would write
a junk file, but is never invoked. -/
theorem c4_witness :
    process_video_step (fun _ => ["junk.h5"]) (["v1.h5"], [])
      "sess/videos-raw/v1.avi" = (["v1.h5"], [])
    ∧ process_gpu_batch (fun _ => ["junk.h5"]) ["sess/videos-raw/v1.avi"]
      ["v1.h5"] = (["v1.h5"], []) :=
  ⟨(c4_process_gpu_batch_skips (fun _ => ["junk.h5"])
      ["sess/videos-raw/v1.avi"] ["v1.h5"]).1 "sess/videos-raw/v1.avi"
      (["v1.h5"], []) (by decide),
   (c4_process_gpu_batch_skips (fun _ => ["junk.h5"])
      ["sess/videos-raw/v1.avi"] ["v1.h5"]).2 (by decide)⟩

end Anipose
